import Mathlib

/-!
# Verification of GitMul's hand-rolled parsing utilities

This file gives a shallow embedding, in Lean, of the original (non-library)
logic of the GitMul desktop Git client:

* the binary image-header parsers of `src-tauri/src/commands/diff.rs`
  (`parse_png_dimensions`, `parse_jpeg_dimensions`, `parse_gif_dimensions`,
  `parse_webp_dimensions`),
* the unified-diff text parser `parse_diff` of the same file,
* the patch re-serialization of `get_commit_diff` / `get_file_diff`
  (the external libgit2 calls are environment parameters; the handler's
  own plumbing is translated from the source), and
* the error plumbing of `get_commit_history` in `commands/git.rs`
  (again with the library modelled as an environment).

Modelling conventions:

* Rust `&[u8]` byte slices become `List Nat` whose entries are byte values;
  every byte read in the sources is bounds-checked before the access, so
  the embedding reads with `List.getD _ _ 0` at indices the guards have
  already established to be in range.
* Rust `&str` / `String` become `List Char`.  (Rust strings are UTF-8
  byte sequences; every string operation performed by the sources —
  prefix tests against ASCII literals, splitting on ASCII separators,
  dropping the ASCII first character — acts the same on the character
  sequence.)
* Rust `u32` values become `Nat`; the increments the source performs on
  them wrap modulo `2 ^ 32` (`w32`), which is the behaviour of u32
  addition in release builds.
* Fallible Rust functions returning `Result<T, String>` become
  `Except (List Char) T`.
-/

namespace GitMul

/-! ## Byte-level helpers -/

/-- Value of byte `i` of a slice.  All reads below are guarded by explicit
length checks taken from the source, so the default is never produced. -/
def byteAt (data : List Nat) (i : Nat) : Nat := data.getD i 0

/-- `u16::from_be_bytes([a, b])`. -/
def u16be (a b : Nat) : Nat := a * 256 + b

/-- `u32::from_be_bytes([a, b, c, d])`. -/
def u32be (a b c d : Nat) : Nat := ((a * 256 + b) * 256 + c) * 256 + d

/-- `u16::from_le_bytes([a, b])`. -/
def u16le (a b : Nat) : Nat := b * 256 + a

/-- `u32::from_le_bytes([a, b, c, d])`. -/
def u32le (a b c d : Nat) : Nat := ((d * 256 + c) * 256 + b) * 256 + a

/-- u32 wrap-around (Rust release-mode `u32` addition is modulo `2 ^ 32`). -/
def w32 (n : Nat) : Nat := n % 4294967296

/-- The character list of a string literal (our model of Rust `&str`). -/
def str (s : String) : List Char := s.data

/-! ## Image header parsers (src-tauri/src/commands/diff.rs, lines 423-499) -/

/-- The 8-byte PNG signature `b"\x89PNG\r\n\x1a\n"`. -/
def pngSignatureBytes : List Nat := [0x89, 0x50, 0x4E, 0x47, 0x0D, 0x0A, 0x1A, 0x0A]

/-- Translation of `parse_png_dimensions` (diff.rs:424-433):
`data.len() >= 24 && &data[0..8] == b"\x89PNG\r\n\x1a\n"` guards reading
the big-endian width at bytes 16..19 and height at bytes 20..23. -/
def parse_png_dimensions (data : List Nat) : Nat × Nat :=
  if 24 ≤ data.length ∧ data.take 8 = pngSignatureBytes then
    (u32be (byteAt data 16) (byteAt data 17) (byteAt data 18) (byteAt data 19),
     u32be (byteAt data 20) (byteAt data 21) (byteAt data 22) (byteAt data 23))
  else (0, 0)

/-- Translation of `parse_gif_dimensions` (diff.rs:470-477): the byte lists
of `b"GIF87a"` and `b"GIF89a"`. -/
def gif87Bytes : List Nat := [0x47, 0x49, 0x46, 0x38, 0x37, 0x61]

/-- Bytes of `b"GIF89a"`. -/
def gif89Bytes : List Nat := [0x47, 0x49, 0x46, 0x38, 0x39, 0x61]

/-- Translation of `parse_gif_dimensions` (diff.rs:470-477). -/
def parse_gif_dimensions (data : List Nat) : Nat × Nat :=
  if 10 ≤ data.length ∧ (gif87Bytes.isPrefixOf data ∨ gif89Bytes.isPrefixOf data) then
    (u16le (byteAt data 6) (byteAt data 7), u16le (byteAt data 8) (byteAt data 9))
  else (0, 0)

/-- Bytes of `b"RIFF"`. -/
def riffBytes : List Nat := [0x52, 0x49, 0x46, 0x46]

/-- Bytes of `b"WEBP"`. -/
def webpBytes : List Nat := [0x57, 0x45, 0x42, 0x50]

/-- Bytes of `b"VP8 "`. -/
def vp8Bytes : List Nat := [0x56, 0x50, 0x38, 0x20]

/-- Bytes of `b"VP8L"`. -/
def vp8lBytes : List Nat := [0x56, 0x50, 0x38, 0x4C]

/-- Translation of `parse_webp_dimensions` (diff.rs:480-499).  In the source
the `VP8 ` arm is an `if` without `else` whose inner signature check may
fall through to the subsequent `VP8L` `if`; the nested `if`s below encode
exactly that control flow. -/
def parse_webp_dimensions (data : List Nat) : Nat × Nat :=
  if 30 ≤ data.length ∧ (data.drop 0).take 4 = riffBytes ∧ (data.drop 8).take 4 = webpBytes then
    if ((data.drop 12).take 4 = vp8Bytes ∧ 30 ≤ data.length) ∧
        (byteAt data 23 = 0x9D ∧ byteAt data 24 = 0x01 ∧ byteAt data 25 = 0x2A) then
      (u16le (byteAt data 26) (byteAt data 27) &&& 0x3FFF,
       u16le (byteAt data 28) (byteAt data 29) &&& 0x3FFF)
    else if (data.drop 12).take 4 = vp8lBytes ∧ 25 ≤ data.length then
      let bits := u32le (byteAt data 21) (byteAt data 22) (byteAt data 23) (byteAt data 24)
      ((bits &&& 0x3FFF) + 1, ((bits >>> 14) &&& 0x3FFF) + 1)
    else (0, 0)
  else (0, 0)

/-- One iteration of the scanning loop of `parse_jpeg_dimensions`
(diff.rs:442-465).  `Sum.inl r` means the loop exits with result `r`
(a `return` of dimensions, a `break`, or the loop guard failing);
`Sum.inr j` means the loop continues at index `j`. -/
def jpegNext (data : List Nat) (i : Nat) : Sum (Nat × Nat) Nat :=
  if i + 1 < data.length then
    if byteAt data i ≠ 0xFF then Sum.inr (i + 1)
    else if (byteAt data (i + 1) = 0xC0 ∨ byteAt data (i + 1) = 0xC2) ∧ i + 9 < data.length then
      Sum.inl (u16be (byteAt data (i + 7)) (byteAt data (i + 8)),
               u16be (byteAt data (i + 5)) (byteAt data (i + 6)))
    else if i + 3 < data.length then
      Sum.inr (i + 2 + u16be (byteAt data (i + 2)) (byteAt data (i + 3)))
    else Sum.inl (0, 0)
  else Sum.inl (0, 0)

theorem jpegNext_inr {data : List Nat} {i j : Nat} (h : jpegNext data i = Sum.inr j) :
    i < j ∧ i + 1 < data.length := by
  unfold jpegNext at h
  by_cases hg : i + 1 < data.length
  · rw [if_pos hg] at h
    refine ⟨?_, hg⟩
    by_cases hff : byteAt data i ≠ 0xFF
    · rw [if_pos hff] at h
      cases h
      omega
    · rw [if_neg hff] at h
      by_cases hsof : (byteAt data (i + 1) = 0xC0 ∨ byteAt data (i + 1) = 0xC2) ∧
          i + 9 < data.length
      · rw [if_pos hsof] at h
        cases h
      · rw [if_neg hsof] at h
        by_cases hsk : i + 3 < data.length
        · rw [if_pos hsk] at h
          cases h
          omega
        · rw [if_neg hsk] at h
          cases h
  · rw [if_neg hg] at h
    cases h

/-- The `while i + 1 < data.len()` loop of `parse_jpeg_dimensions`,
defined by well-founded recursion on `data.length - i` (justified by
`jpegNext_inr`: the index strictly increases on every continuing step). -/
def jpegLoop (data : List Nat) (i : Nat) : Nat × Nat :=
  match h : jpegNext data i with
  | Sum.inl r => r
  | Sum.inr j => jpegLoop data j
termination_by data.length - i
decreasing_by
  have := jpegNext_inr h
  omega

/-- Translation of `parse_jpeg_dimensions` (diff.rs:436-467). -/
def parse_jpeg_dimensions (data : List Nat) : Nat × Nat :=
  if data.length < 4 ∨ byteAt data 0 ≠ 0xFF ∨ byteAt data 1 ≠ 0xD8 then (0, 0)
  else jpegLoop data 2

/-! ## Spec-side readings of the image-header claims

These definitions follow the wording of the claims ("the big-endian u32 at
bytes 16..19", "the little-endian u16 at bytes 6..7", ...), to be compared
with the translations above. -/

/-- The big-endian 32-bit value stored at bytes `k..k+3`. -/
def beU32At (data : List Nat) (k : Nat) : Nat :=
  16777216 * byteAt data k + 65536 * byteAt data (k + 1) +
    256 * byteAt data (k + 2) + byteAt data (k + 3)

/-- The big-endian 16-bit value stored at bytes `k..k+1`. -/
def beU16At (data : List Nat) (k : Nat) : Nat :=
  256 * byteAt data k + byteAt data (k + 1)

/-- The little-endian 16-bit value stored at bytes `k..k+1`. -/
def leU16At (data : List Nat) (k : Nat) : Nat :=
  byteAt data k + 256 * byteAt data (k + 1)

/-- The little-endian 32-bit value stored at bytes `k..k+3`. -/
def leU32At (data : List Nat) (k : Nat) : Nat :=
  byteAt data k + 256 * byteAt data (k + 1) +
    65536 * byteAt data (k + 2) + 16777216 * byteAt data (k + 3)

/-- Spec-side JPEG marker scan, following the claim's wording: starting from
an offset, the first SOF0 (`0xFF 0xC0`) or SOF2 (`0xFF 0xC2`) marker with
enough trailing bytes for a frame header, where every other marker is
skipped by its declared big-endian length (and a byte that is not `0xFF`
is stepped over singly).  Returns the offset of the marker's `0xFF` byte. -/
def jpegFindSOF (data : List Nat) (i : Nat) : Option Nat :=
  if h : i + 1 < data.length then
    if byteAt data i ≠ 0xFF then jpegFindSOF data (i + 1)
    else if (byteAt data (i + 1) = 0xC0 ∨ byteAt data (i + 1) = 0xC2) ∧ i + 9 < data.length then
      some i
    else if i + 3 < data.length then
      jpegFindSOF data (i + 2 + u16be (byteAt data (i + 2)) (byteAt data (i + 3)))
    else none
  else none
termination_by data.length - i
decreasing_by
  · omega
  · omega

/-- The dimensions the claim reads off at a SOF marker at offset `m`:
height is the big-endian u16 at `m+5..m+6`, width at `m+7..m+8`, and the
pair is returned as (width, height).  `none` (no reachable SOF marker)
yields `(0, 0)`. -/
def jpegDimsAt (data : List Nat) : Option Nat → Nat × Nat
  | some m => (beU16At data (m + 7), beU16At data (m + 5))
  | none => (0, 0)

/-! ## Theorems about the image-header parsers -/

theorem take_eq_iff_isPrefixOf (sig data : List Nat) :
    data.take sig.length = sig ↔ sig.isPrefixOf data := by
  rw [List.isPrefixOf_iff_prefix, List.prefix_iff_eq_take]
  exact ⟨fun h => h.symm, fun h => h.symm⟩

/-- C4.  `parse_png_dimensions` returns the big-endian u32s at bytes 16..19
and 20..23 as (width, height) exactly when the input has at least 24 bytes
and begins with the 8-byte PNG signature, and `(0, 0)` on every other
input. -/
theorem parse_png_dimensions_matches_claim (data : List Nat) :
    parse_png_dimensions data =
      if pngSignatureBytes.isPrefixOf data ∧ 24 ≤ data.length then
        (beU32At data 16, beU32At data 20)
      else (0, 0) := by
  have hpre : data.take 8 = pngSignatureBytes ↔ pngSignatureBytes.isPrefixOf data :=
    take_eq_iff_isPrefixOf pngSignatureBytes data
  unfold parse_png_dimensions
  by_cases h : 24 ≤ data.length ∧ data.take 8 = pngSignatureBytes
  · rw [if_pos h, if_pos ⟨hpre.mp h.2, h.1⟩]
    unfold beU32At u32be
    rw [Prod.mk.injEq]
    norm_num
    constructor <;> ring
  · rw [if_neg h, if_neg ?_]
    intro hc
    exact h ⟨hc.2, hpre.mpr hc.1⟩

/-- C6.  `parse_gif_dimensions` returns the little-endian u16s at bytes 6..7
and 8..9 as (width, height) exactly when the input has at least 10 bytes and
starts with `GIF87a` or `GIF89a`, and `(0, 0)` on every other input. -/
theorem parse_gif_dimensions_matches_claim (data : List Nat) :
    parse_gif_dimensions data =
      if 10 ≤ data.length ∧ (data.take 6 = gif87Bytes ∨ data.take 6 = gif89Bytes) then
        (leU16At data 6, leU16At data 8)
      else (0, 0) := by
  have h87 : data.take 6 = gif87Bytes ↔ gif87Bytes.isPrefixOf data :=
    take_eq_iff_isPrefixOf gif87Bytes data
  have h89 : data.take 6 = gif89Bytes ↔ gif89Bytes.isPrefixOf data :=
    take_eq_iff_isPrefixOf gif89Bytes data
  unfold parse_gif_dimensions
  by_cases h : 10 ≤ data.length ∧ (gif87Bytes.isPrefixOf data ∨ gif89Bytes.isPrefixOf data)
  · rw [if_pos h, if_pos ⟨h.1, h.2.imp h87.mpr h89.mpr⟩]
    unfold leU16At u16le
    rw [Prod.mk.injEq]
    norm_num
    constructor <;> ring
  · rw [if_neg h, if_neg ?_]
    intro hc
    exact h ⟨hc.1, hc.2.imp h87.mp h89.mp⟩

/-- C7.  `parse_webp_dimensions` agrees with the claim's case analysis:
with the RIFF/WEBP signature present and at least 30 bytes, a `VP8 ` chunk
whose bytes 23..25 are `0x9D 0x01 0x2A` yields the masked little-endian
u16s at 26..27 and 28..29; a `VP8L` chunk yields the widths decoded from
the little-endian u32 at 21..24; every other case yields `(0, 0)`. -/
theorem parse_webp_dimensions_matches_claim (data : List Nat) :
    parse_webp_dimensions data =
      if 30 ≤ data.length ∧ riffBytes.isPrefixOf data ∧ (data.drop 8).take 4 = webpBytes then
        if (data.drop 12).take 4 = vp8Bytes then
          if byteAt data 23 = 0x9D ∧ byteAt data 24 = 0x01 ∧ byteAt data 25 = 0x2A then
            (leU16At data 26 &&& 0x3FFF, leU16At data 28 &&& 0x3FFF)
          else (0, 0)
        else if (data.drop 12).take 4 = vp8lBytes then
          ((leU32At data 21 &&& 0x3FFF) + 1, ((leU32At data 21 >>> 14) &&& 0x3FFF) + 1)
        else (0, 0)
      else (0, 0) := by
  have hriff : (data.drop 0).take 4 = riffBytes ↔ riffBytes.isPrefixOf data := by
    rw [List.drop_zero]
    exact take_eq_iff_isPrefixOf riffBytes data
  have e26 : u16le (byteAt data 26) (byteAt data 27) = leU16At data 26 := by
    unfold u16le leU16At; ring
  have e28 : u16le (byteAt data 28) (byteAt data 29) = leU16At data 28 := by
    unfold u16le leU16At; ring
  have e21 : u32le (byteAt data 21) (byteAt data 22) (byteAt data 23) (byteAt data 24) =
      leU32At data 21 := by
    unfold u32le leU32At; ring
  have hne : (data.drop 12).take 4 = vp8Bytes → (data.drop 12).take 4 = vp8lBytes → False := by
    intro h1 h2
    rw [h1] at h2
    exact absurd h2 (by decide)
  unfold parse_webp_dimensions
  by_cases houter : 30 ≤ data.length ∧ (data.drop 0).take 4 = riffBytes ∧
      (data.drop 8).take 4 = webpBytes
  · have houter' : 30 ≤ data.length ∧ riffBytes.isPrefixOf data ∧
        (data.drop 8).take 4 = webpBytes := ⟨houter.1, hriff.mp houter.2.1, houter.2.2⟩
    rw [if_pos houter, if_pos houter']
    by_cases hvp8 : (data.drop 12).take 4 = vp8Bytes
    · rw [if_pos hvp8]
      by_cases hsig : byteAt data 23 = 0x9D ∧ byteAt data 24 = 0x01 ∧ byteAt data 25 = 0x2A
      · have hv : ((data.drop 12).take 4 = vp8Bytes ∧ 30 ≤ data.length) ∧
            (byteAt data 23 = 0x9D ∧ byteAt data 24 = 0x01 ∧ byteAt data 25 = 0x2A) :=
          ⟨⟨hvp8, houter.1⟩, hsig⟩
        rw [if_pos hv, if_pos hsig, e26, e28]
      · have hv : ¬ (((data.drop 12).take 4 = vp8Bytes ∧ 30 ≤ data.length) ∧
            (byteAt data 23 = 0x9D ∧ byteAt data 24 = 0x01 ∧ byteAt data 25 = 0x2A)) :=
          fun hc => hsig hc.2
        have hl : ¬ ((data.drop 12).take 4 = vp8lBytes ∧ 25 ≤ data.length) :=
          fun hc => hne hvp8 hc.1
        rw [if_neg hv, if_neg hsig, if_neg hl]
    · have hv : ¬ (((data.drop 12).take 4 = vp8Bytes ∧ 30 ≤ data.length) ∧
          (byteAt data 23 = 0x9D ∧ byteAt data 24 = 0x01 ∧ byteAt data 25 = 0x2A)) :=
        fun hc => hvp8 hc.1.1
      rw [if_neg hv, if_neg hvp8]
      by_cases hvp8l : (data.drop 12).take 4 = vp8lBytes
      · have hl : (data.drop 12).take 4 = vp8lBytes ∧ 25 ≤ data.length :=
          ⟨hvp8l, by omega⟩
        rw [if_pos hl, if_pos hvp8l, e21]
      · have hl : ¬ ((data.drop 12).take 4 = vp8lBytes ∧ 25 ≤ data.length) :=
          fun hc => hvp8l hc.1
        rw [if_neg hl, if_neg hvp8l]
  · rw [if_neg houter, if_neg ?_]
    intro hc
    exact houter ⟨hc.1, hriff.mpr hc.2.1, hc.2.2⟩

theorem jpegLoop_unfold (data : List Nat) (i : Nat) :
    jpegLoop data i = match jpegNext data i with
      | Sum.inl r => r
      | Sum.inr j => jpegLoop data j := by
  rw [jpegLoop]
  cases hje : jpegNext data i <;> simp

theorem jpegLoop_of_inl {data : List Nat} {i : Nat} {r : Nat × Nat}
    (h : jpegNext data i = Sum.inl r) : jpegLoop data i = r := by
  rw [jpegLoop_unfold, h]

theorem jpegLoop_of_inr {data : List Nat} {i j : Nat}
    (h : jpegNext data i = Sum.inr j) : jpegLoop data i = jpegLoop data j := by
  rw [jpegLoop_unfold, h]

theorem jpegFindSOF_unfold (data : List Nat) (i : Nat) :
    jpegFindSOF data i =
      if i + 1 < data.length then
        if byteAt data i ≠ 0xFF then jpegFindSOF data (i + 1)
        else if (byteAt data (i + 1) = 0xC0 ∨ byteAt data (i + 1) = 0xC2) ∧
            i + 9 < data.length then
          some i
        else if i + 3 < data.length then
          jpegFindSOF data (i + 2 + u16be (byteAt data (i + 2)) (byteAt data (i + 3)))
        else none
      else none := by
  rw [jpegFindSOF]
  by_cases h : i + 1 < data.length
  · rw [dif_pos h, if_pos h]
  · rw [dif_neg h, if_neg h]

/-- The scanning loop returns exactly the dimensions read at the first
reachable SOF marker (`(0, 0)` when there is none). -/
theorem jpegLoop_eq_dims (data : List Nat) :
    ∀ n i, data.length - i ≤ n → jpegLoop data i = jpegDimsAt data (jpegFindSOF data i) := by
  intro n
  induction n with
  | zero =>
    intro i hi
    have hg : ¬ i + 1 < data.length := by omega
    have h1 : jpegNext data i = Sum.inl (0, 0) := by
      unfold jpegNext; rw [if_neg hg]
    rw [jpegLoop_of_inl h1, jpegFindSOF_unfold, if_neg hg]
    rfl
  | succ n ih =>
    intro i hi
    by_cases hg : i + 1 < data.length
    · by_cases hff : byteAt data i ≠ 0xFF
      · have h1 : jpegNext data i = Sum.inr (i + 1) := by
          unfold jpegNext; rw [if_pos hg, if_pos hff]
        rw [jpegLoop_of_inr h1, jpegFindSOF_unfold, if_pos hg, if_pos hff]
        exact ih (i + 1) (by omega)
      · by_cases hsof : (byteAt data (i + 1) = 0xC0 ∨ byteAt data (i + 1) = 0xC2) ∧
            i + 9 < data.length
        · have h1 : jpegNext data i =
              Sum.inl (u16be (byteAt data (i + 7)) (byteAt data (i + 8)),
                u16be (byteAt data (i + 5)) (byteAt data (i + 6))) := by
            unfold jpegNext; rw [if_pos hg, if_neg hff, if_pos hsof]
          rw [jpegLoop_of_inl h1, jpegFindSOF_unfold, if_pos hg, if_neg hff, if_pos hsof]
          simp only [jpegDimsAt, beU16At, u16be, Prod.mk.injEq]
          constructor <;> ring
        · by_cases hsk : i + 3 < data.length
          · have h1 : jpegNext data i =
                Sum.inr (i + 2 + u16be (byteAt data (i + 2)) (byteAt data (i + 3))) := by
              unfold jpegNext; rw [if_pos hg, if_neg hff, if_neg hsof, if_pos hsk]
            rw [jpegLoop_of_inr h1, jpegFindSOF_unfold, if_pos hg, if_neg hff,
              if_neg hsof, if_pos hsk]
            exact ih _ (by omega)
          · have h1 : jpegNext data i = Sum.inl (0, 0) := by
              unfold jpegNext; rw [if_pos hg, if_neg hff, if_neg hsof, if_neg hsk]
            rw [jpegLoop_of_inl h1, jpegFindSOF_unfold, if_pos hg, if_neg hff,
              if_neg hsof, if_neg hsk]
            rfl
    · have h1 : jpegNext data i = Sum.inl (0, 0) := by
        unfold jpegNext; rw [if_neg hg]
      rw [jpegLoop_of_inl h1, jpegFindSOF_unfold, if_neg hg]
      rfl

/-- C5.  For SOI-led input, `parse_jpeg_dimensions` returns the dimensions
read at the first SOF0/SOF2 marker with enough trailing bytes — height from
the big-endian u16 at marker+5..6, width from marker+7..8 — where every
other marker is skipped by its declared big-endian length; with no
reachable SOF marker, or with input not beginning with `0xFF 0xD8`, it
returns `(0, 0)`. -/
theorem parse_jpeg_dimensions_matches_claim (data : List Nat) :
    parse_jpeg_dimensions data =
      if 4 ≤ data.length ∧ byteAt data 0 = 0xFF ∧ byteAt data 1 = 0xD8 then
        jpegDimsAt data (jpegFindSOF data 2)
      else (0, 0) := by
  unfold parse_jpeg_dimensions
  by_cases h : data.length < 4 ∨ byteAt data 0 ≠ 0xFF ∨ byteAt data 1 ≠ 0xD8
  · rw [if_pos h, if_neg ?_]
    intro hc
    rcases h with h | h | h
    · omega
    · exact h hc.2.1
    · exact h hc.2.2
  · push_neg at h
    rw [if_neg ?_, if_pos ⟨by omega, h.2.1, h.2.2⟩]
    · exact jpegLoop_eq_dims data data.length 2 (by omega)
    · intro hc
      rcases hc with hc | hc | hc
      · omega
      · exact hc h.2.1
      · exact hc h.2.2

/-- C10.  The scanning loop of `parse_jpeg_dimensions` terminates: every
iteration that continues (`Sum.inr`) strictly increases the index, so the
measure `data.length - i` strictly decreases. -/
theorem jpeg_scan_terminates (data : List Nat) (i j : Nat)
    (h : jpegNext data i = Sum.inr j) :
    i < j ∧ data.length - j < data.length - i := by
  have := jpegNext_inr h
  omega

theorem jpeg_scan_terminates_witness :
    jpegNext [0xFF, 0xD8, 0x00, 0x00] 2 = Sum.inr 3 ∧
      (2 < 3 ∧ ([0xFF, 0xD8, 0x00, 0x00] : List Nat).length - 3 <
        ([0xFF, 0xD8, 0x00, 0x00] : List Nat).length - 2) :=
  ⟨by decide, jpeg_scan_terminates [0xFF, 0xD8, 0x00, 0x00] 2 3 (by decide)⟩

/-! ## String primitives used by the diff parser -/

/-- Rust `str::lines`, on the character sequence: lines are cut at `'\n'`,
a `'\r'` immediately before a `'\n'` is stripped, and a final unterminated
segment is kept only when nonempty (a bare final `'\r'` stays).  `acc`
holds the current line's characters in reverse. -/
def rustLinesAux : List Char → List Char → List (List Char)
  | [], acc => if acc.isEmpty then [] else [acc.reverse]
  | c :: rest, acc =>
    if c = '\n' then
      (match acc with
        | '\r' :: acc2 => acc2.reverse
        | _ => acc.reverse) :: rustLinesAux rest []
    else rustLinesAux rest (c :: acc)

/-- `diff_text.lines()`. -/
def rustLines (s : List Char) : List (List Char) := rustLinesAux s []

/-- Rust `str::starts_with` with a string pattern. -/
def startsWith (s pat : List Char) : Bool := pat.isPrefixOf s

/-- The code points with Unicode property White_Space (what Rust
`char::is_whitespace` tests). -/
def rustWhitespaceChars : List Char :=
  [' ', '\t', '\n', '\x0B', '\x0C', '\r', '\u0085', '\u00A0', '\u1680',
   '\u2000', '\u2001', '\u2002', '\u2003', '\u2004', '\u2005', '\u2006',
   '\u2007', '\u2008', '\u2009', '\u200A', '\u2028', '\u2029', '\u202F',
   '\u205F', '\u3000']

/-- Rust `char::is_whitespace`. -/
def rustIsWhitespace (c : Char) : Bool := rustWhitespaceChars.contains c

/-- Rust `str::split_whitespace`: maximal runs of non-whitespace
characters, with no empty items.  `acc` holds the current word reversed. -/
def splitWhitespaceAux : List Char → List Char → List (List Char)
  | [], acc => if acc.isEmpty then [] else [acc.reverse]
  | c :: rest, acc =>
    if rustIsWhitespace c then
      if acc.isEmpty then splitWhitespaceAux rest []
      else acc.reverse :: splitWhitespaceAux rest []
    else splitWhitespaceAux rest (c :: acc)

/-- `line.split_whitespace()` collected into a list. -/
def splitWhitespace (s : List Char) : List (List Char) := splitWhitespaceAux s []

/-- Rust `str::split(sep)` for a one-character separator: always at least
one item, empty items kept. -/
def splitOnCharAux (sep : Char) : List Char → List Char → List (List Char)
  | [], acc => [acc.reverse]
  | c :: rest, acc =>
    if c = sep then acc.reverse :: splitOnCharAux sep rest []
    else splitOnCharAux sep rest (c :: acc)

/-- `range.split(',')` collected into a list. -/
def splitOnChar (sep : Char) (s : List Char) : List (List Char) :=
  splitOnCharAux sep s []

/-- Rust `str::trim_start_matches` with a (nonempty) string pattern:
every successive occurrence of the pattern is removed from the front. -/
def trimStartMatches (s pat : List Char) : List Char :=
  if hp : pat.isEmpty then s
  else if h : pat.isPrefixOf s then trimStartMatches (s.drop pat.length) pat
  else s
termination_by s.length
decreasing_by
  have hle : pat.length ≤ s.length := (List.isPrefixOf_iff_prefix.mp h).length_le
  have hne : pat ≠ [] := by
    intro hnil
    rw [hnil] at hp
    exact hp rfl
  have hpos : 0 < pat.length := List.length_pos.mpr hne
  simp only [List.length_drop]
  omega

/-- Rust `str::parse::<u32>`: an optional leading `'+'`, then at least one
ASCII digit, and the value must fit in 32 bits; anything else is `Err`
(which the source turns into the default via `unwrap_or`). -/
def parseU32 (s : List Char) : Option Nat :=
  let t := match s with
    | '+' :: rest => rest
    | _ => s
  if t.isEmpty then none
  else if t.all (fun c => c.isDigit) then
    let v := t.foldl (fun a c => a * 10 + (c.toNat - 48)) 0
    if v < 4294967296 then some v else none
  else none

/-! ## The unified diff parser (diff.rs:119-236) -/

/-- `DiffLine` (diff.rs:6-12).  `line_type` is `"context"`, `"addition"` or
`"deletion"`. -/
structure DiffLine where
  line_type : List Char
  old_line_no : Option Nat
  new_line_no : Option Nat
  content : List Char
deriving DecidableEq

/-- `DiffHunk` (diff.rs:14-22). -/
structure DiffHunk where
  old_start : Nat
  old_lines : Nat
  new_start : Nat
  new_lines : Nat
  header : List Char
  lines : List DiffLine
deriving DecidableEq

/-- `ParsedDiff` (diff.rs:24-33). -/
structure ParsedDiff where
  file_path : List Char
  old_path : List Char
  new_path : List Char
  is_binary : Bool
  hunks : List DiffHunk
  additions : Nat
  deletions : Nat
deriving DecidableEq

/-- The mutable locals of `parse_diff`'s loop (diff.rs:122-132). -/
structure ParseState where
  file_path : List Char
  old_path : List Char
  new_path : List Char
  is_binary : Bool
  hunks : List DiffHunk
  additions : Nat
  deletions : Nat
  current_hunk : Option DiffHunk
  old_line_no : Nat
  new_line_no : Nat
deriving DecidableEq

/-- The locals as initialised before the loop (diff.rs:122-132). -/
def initState : ParseState :=
  { file_path := [], old_path := [], new_path := [], is_binary := false,
    hunks := [], additions := 0, deletions := 0, current_hunk := none,
    old_line_no := 0, new_line_no := 0 }

/-- `normalize_unicode` (diff.rs:36-38) applies NFC normalization.
Modelled as the identity map: NFC rewrites only decomposed Unicode
sequences (on ASCII it is the identity), it is applied only to the three
path fields of the result, and no claim below constrains those fields on
non-ASCII input. -/
def normalize_unicode (s : List Char) : List Char := s

/-- The body of `parse_diff`'s `for line in lines` loop (diff.rs:134-220),
one line at a time. -/
def parseDiffStep (st : ParseState) (line : List Char) : ParseState :=
  if startsWith line (str "diff --git") then
    match (splitWhitespace line).get? 2 with
    | some p => { st with file_path := trimStartMatches p (str "a/") }
    | none => st
  else if startsWith line (str "---") then
    { st with old_path := trimStartMatches line (str "--- a/") }
  else if startsWith line (str "+++") then
    { st with new_path := trimStartMatches line (str "+++ b/") }
  else if startsWith line (str "Binary files") then
    { st with is_binary := true }
  else if startsWith line (str "@@") then
    let hunks2 := st.hunks ++ st.current_hunk.toList
    match splitWhitespace line with
    | _ :: p1 :: p2 :: _ =>
      let old_range := p1.dropWhile (fun c => c = '-')
      let old_parts := splitOnChar ',' old_range
      let old_start := (parseU32 (old_parts.headD [])).getD 1
      let old_lines :=
        match old_parts with
        | _ :: second :: _ => (parseU32 second).getD 1
        | _ => 1
      let new_range := p2.dropWhile (fun c => c = '+')
      let new_parts := splitOnChar ',' new_range
      let new_start := (parseU32 (new_parts.headD [])).getD 1
      let new_lines :=
        match new_parts with
        | _ :: second :: _ => (parseU32 second).getD 1
        | _ => 1
      { st with hunks := hunks2,
                current_hunk := some { old_start := old_start, old_lines := old_lines,
                                       new_start := new_start, new_lines := new_lines,
                                       header := line, lines := [] },
                old_line_no := old_start, new_line_no := new_start }
    | _ => { st with hunks := hunks2, current_hunk := none }
  else
    match st.current_hunk with
    | some hunk =>
      if startsWith line (str "+") ∧ ¬ startsWith line (str "+++") then
        { st with
          current_hunk := some { hunk with lines := hunk.lines ++
            [{ line_type := str "addition", old_line_no := none,
               new_line_no := some st.new_line_no, content := line.drop 1 }] },
          new_line_no := w32 (st.new_line_no + 1),
          additions := w32 (st.additions + 1) }
      else if startsWith line (str "-") ∧ ¬ startsWith line (str "---") then
        { st with
          current_hunk := some { hunk with lines := hunk.lines ++
            [{ line_type := str "deletion", old_line_no := some st.old_line_no,
               new_line_no := none, content := line.drop 1 }] },
          old_line_no := w32 (st.old_line_no + 1),
          deletions := w32 (st.deletions + 1) }
      else if startsWith line (str " ") then
        { st with
          current_hunk := some { hunk with lines := hunk.lines ++
            [{ line_type := str "context", old_line_no := some st.old_line_no,
               new_line_no := some st.new_line_no, content := line.drop 1 }] },
          old_line_no := w32 (st.old_line_no + 1),
          new_line_no := w32 (st.new_line_no + 1) }
      else st
    | none => st

/-- `parse_diff` after the loop (diff.rs:222-235): push the last hunk and
assemble the result. -/
def parseDiffLines (lines : List (List Char)) : ParsedDiff :=
  let st := lines.foldl parseDiffStep initState
  { file_path := normalize_unicode st.file_path,
    old_path := normalize_unicode st.old_path,
    new_path := normalize_unicode st.new_path,
    is_binary := st.is_binary,
    hunks := st.hunks ++ st.current_hunk.toList,
    additions := st.additions,
    deletions := st.deletions }

/-- Translation of `parse_diff` (diff.rs:119-236).  The `Err` variant of
the source's `Result<ParsedDiff, String>` is never produced. -/
def parse_diff (diff_text : String) : Except (List Char) ParsedDiff :=
  Except.ok (parseDiffLines (rustLines diff_text.data))

/-! ## The claim's reading of the diff parser

An independent rendering of what the C1 claim says `parse_diff` computes,
restricted to the data the claim speaks about (hunks and the two
counters).  The line numbering advances in u32 arithmetic, as the
counters are u32. -/

/-- The claim-side scan state: hunks so far, the open hunk, the two line
counters and the two totals. -/
structure ClaimState where
  hunks : List DiffHunk
  current : Option DiffHunk
  oldNo : Nat
  newNo : Nat
  adds : Nat
  dels : Nat
deriving DecidableEq

/-- The claim's reading of one hunk-header range field such as `-a,b` or
`+c,d`: strip the sign, the number before the comma is the start and the
number after it is the count, a count being taken as 1 when the comma part
is absent or unparsable (and a start likewise defaulting to 1). -/
def claimRange (sign : Char) (field : List Char) : Nat × Nat :=
  let t := field.dropWhile (fun c => c = sign)
  match splitOnChar ',' t with
  | s0 :: s1 :: _ => ((parseU32 s0).getD 1, (parseU32 s1).getD 1)
  | _ => ((parseU32 t).getD 1, 1)

/-- One line as the claim describes it: a line starting with `"@@"` pushes
the open hunk and (when it has at least three whitespace-separated fields)
opens a new one from the header ranges; within the open hunk a line
starting with `'+'` but not `"+++"` is an addition, one starting with `'-'`
but not `"---"` is a deletion, one starting with `' '` is context, with the
line numbers assigned consecutively from the hunk's starts. -/
def claimStep (st : ClaimState) (line : List Char) : ClaimState :=
  if startsWith line (str "@@") then
    let pushed := st.hunks ++ st.current.toList
    match splitWhitespace line with
    | _ :: f1 :: f2 :: _ =>
      let o := claimRange '-' f1
      let n := claimRange '+' f2
      { hunks := pushed,
        current := some { old_start := o.1, old_lines := o.2, new_start := n.1,
                          new_lines := n.2, header := line, lines := [] },
        oldNo := o.1, newNo := n.1, adds := st.adds, dels := st.dels }
    | _ => { st with hunks := pushed, current := none }
  else
    match st.current with
    | some hunk =>
      if startsWith line (str "+") ∧ ¬ startsWith line (str "+++") then
        { st with
          current := some { hunk with lines := hunk.lines ++
            [{ line_type := str "addition", old_line_no := none,
               new_line_no := some st.newNo, content := line.drop 1 }] },
          newNo := w32 (st.newNo + 1),
          adds := w32 (st.adds + 1) }
      else if startsWith line (str "-") ∧ ¬ startsWith line (str "---") then
        { st with
          current := some { hunk with lines := hunk.lines ++
            [{ line_type := str "deletion", old_line_no := some st.oldNo,
               new_line_no := none, content := line.drop 1 }] },
          oldNo := w32 (st.oldNo + 1),
          dels := w32 (st.dels + 1) }
      else if startsWith line (str " ") then
        { st with
          current := some { hunk with lines := hunk.lines ++
            [{ line_type := str "context", old_line_no := some st.oldNo,
               new_line_no := some st.newNo, content := line.drop 1 }] },
          oldNo := w32 (st.oldNo + 1),
          newNo := w32 (st.newNo + 1) }
      else st
    | none => st

/-- The claim-side scan's initial state. -/
def initClaim : ClaimState :=
  { hunks := [], current := none, oldNo := 0, newNo := 0, adds := 0, dels := 0 }

/-- What the C1 claim determines of `parse_diff`'s output. -/
structure ClaimResult where
  hunks : List DiffHunk
  additions : Nat
  deletions : Nat
deriving DecidableEq

/-- The claim-side parse: scan the lines, then push the open hunk. -/
def parseDiffClaim (lines : List (List Char)) : ClaimResult :=
  let st := lines.foldl claimStep initClaim
  { hunks := st.hunks ++ st.current.toList, additions := st.adds, deletions := st.dels }

/-- The fields of the parser's loop state that the C1 claim speaks about. -/
def projState (st : ParseState) : ClaimState :=
  { hunks := st.hunks, current := st.current_hunk, oldNo := st.old_line_no,
    newNo := st.new_line_no, adds := st.additions, dels := st.deletions }

/-! ## Counting diff lines (for C9) -/

/-- Whether a recorded diff line is typed `t`. -/
def lineHasType (t : List Char) (l : DiffLine) : Bool := l.line_type = t

/-- Number of recorded lines of type `t` across a list of hunks. -/
def countLines (t : List Char) (hs : List DiffHunk) : Nat :=
  (hs.map (fun h => (h.lines.filter (lineHasType t)).length)).sum

/-- The per-line shape the C9 claim asserts: an addition has no old number
and some new number, a deletion the reverse, a context line both. -/
def lineNumbersWellFormed (l : DiffLine) : Prop :=
  (l.line_type = str "addition" → l.old_line_no = none ∧ l.new_line_no ≠ none) ∧
  (l.line_type = str "deletion" → l.old_line_no ≠ none ∧ l.new_line_no = none) ∧
  (l.line_type = str "context" → l.old_line_no ≠ none ∧ l.new_line_no ≠ none)

/-- All recorded lines of all hunks in a list are well formed. -/
def hunksWellFormed (hs : List DiffHunk) : Prop :=
  ∀ h ∈ hs, ∀ l ∈ h.lines, lineNumbersWellFormed l

/-! ## The parser agrees with the claim's reading -/

theorem not_eq_true_of_false {b : Bool} (h : b = false) : ¬ b = true := by
  rw [h]
  exact Bool.false_ne_true

theorem startsWith_head {l p : List Char} {c : Char}
    (h : startsWith l (c :: p) = true) : ∃ t, l = c :: t := by
  cases l with
  | nil => simp [startsWith, List.isPrefixOf] at h
  | cons d t =>
    simp only [startsWith, List.isPrefixOf, Bool.and_eq_true, beq_iff_eq] at h
    exact ⟨t, by rw [h.1]⟩

theorem splitOnCharAux_ne_nil (sep : Char) :
    ∀ (s acc : List Char), splitOnCharAux sep s acc ≠ [] := by
  intro s
  induction s with
  | nil =>
    intro acc
    unfold splitOnCharAux
    simp
  | cons c rest ih =>
    intro acc
    unfold splitOnCharAux
    by_cases hc : c = sep
    · rw [if_pos hc]
      simp
    · rw [if_neg hc]
      exact ih _

theorem splitOnChar_ne_nil (sep : Char) (s : List Char) : splitOnChar sep s ≠ [] :=
  splitOnCharAux_ne_nil sep s []

theorem splitOnCharAux_singleton (sep : Char) :
    ∀ (s acc : List Char) (x : List Char),
      splitOnCharAux sep s acc = [x] → x = acc.reverse ++ s := by
  intro s
  induction s with
  | nil =>
    intro acc x h
    unfold splitOnCharAux at h
    cases h
    simp
  | cons c rest ih =>
    intro acc x h
    unfold splitOnCharAux at h
    by_cases hc : c = sep
    · rw [if_pos hc] at h
      cases hs : splitOnCharAux sep rest [] with
      | nil => exact absurd hs (splitOnCharAux_ne_nil sep rest [])
      | cons y ys =>
        rw [hs] at h
        cases h
    · rw [if_neg hc] at h
      have := ih (c :: acc) x h
      rw [this]
      simp

theorem splitOnChar_singleton {sep : Char} {s x : List Char}
    (h : splitOnChar sep s = [x]) : x = s := by
  have := splitOnCharAux_singleton sep s [] x h
  simpa using this

theorem claimRange_fst (sign : Char) (field : List Char) :
    (claimRange sign field).1 =
      (parseU32 ((splitOnChar ',' (field.dropWhile (fun c => c = sign))).headD [])).getD 1 := by
  simp only [claimRange]
  cases hs : splitOnChar ',' (field.dropWhile (fun c => c = sign)) with
  | nil => exact absurd hs (splitOnChar_ne_nil ',' _)
  | cons s0 tl =>
    cases tl with
    | nil =>
      have hx : s0 = field.dropWhile (fun c => c = sign) := splitOnChar_singleton hs
      simp [hx]
    | cons s1 tl2 => rfl

theorem claimRange_snd (sign : Char) (field : List Char) :
    (claimRange sign field).2 =
      (match splitOnChar ',' (field.dropWhile (fun c => c = sign)) with
        | _ :: second :: _ => (parseU32 second).getD 1
        | _ => 1) := by
  simp only [claimRange]
  cases hs : splitOnChar ',' (field.dropWhile (fun c => c = sign)) with
  | nil => exact absurd hs (splitOnChar_ne_nil ',' _)
  | cons s0 tl =>
    cases tl with
    | nil => rfl
    | cons s1 tl2 => rfl

/-- A line that triggers none of the claim's cases leaves the claim-side
state unchanged. -/
theorem claimStep_skip (cs : ClaimState) (line : List Char)
    (hAt : startsWith line (str "@@") = false)
    (hAdd : startsWith line (str "+") = true → startsWith line (str "+++") = true)
    (hDel : startsWith line (str "-") = true → startsWith line (str "---") = true)
    (hCtx : startsWith line (str " ") = false) :
    claimStep cs line = cs := by
  unfold claimStep
  rw [if_neg (not_eq_true_of_false hAt)]
  cases hc : cs.current with
  | none => rfl
  | some hunk =>
    have h1 : ¬ (startsWith line (str "+") = true ∧ ¬ startsWith line (str "+++") = true) :=
      fun hcj => hcj.2 (hAdd hcj.1)
    have h2 : ¬ (startsWith line (str "-") = true ∧ ¬ startsWith line (str "---") = true) :=
      fun hcj => hcj.2 (hDel hcj.1)
    have h3 : ¬ startsWith line (str " ") = true := not_eq_true_of_false hCtx
    simp only [if_neg h1, if_neg h2, if_neg h3]

/-- Stepping the parser and projecting is projecting and stepping the
claim's scan: the heart of C1. -/
theorem projState_step (st : ParseState) (line : List Char) :
    projState (parseDiffStep st line) = claimStep (projState st) line := by
  by_cases b1 : startsWith line (str "diff --git")
  · obtain ⟨t, rfl⟩ := startsWith_head b1
    have hL : projState (parseDiffStep st ('d' :: t)) = projState st := by
      unfold parseDiffStep
      rw [if_pos b1]
      cases hg : (splitWhitespace ('d' :: t)).get? 2 <;> rfl
    rw [hL, claimStep_skip (projState st) ('d' :: t) rfl
      (fun hc => absurd hc (not_eq_true_of_false rfl))
      (fun hc => absurd hc (not_eq_true_of_false rfl)) rfl]
  · by_cases b2 : startsWith line (str "---")
    · obtain ⟨t, rfl⟩ := startsWith_head b2
      have hL : projState (parseDiffStep st ('-' :: t)) = projState st := by
        unfold parseDiffStep
        rw [if_neg b1, if_pos b2]
        rfl
      rw [hL, claimStep_skip (projState st) ('-' :: t) rfl
        (fun hc => absurd hc (not_eq_true_of_false rfl))
        (fun _ => b2) rfl]
    · by_cases b3 : startsWith line (str "+++")
      · obtain ⟨t, rfl⟩ := startsWith_head b3
        have hL : projState (parseDiffStep st ('+' :: t)) = projState st := by
          unfold parseDiffStep
          rw [if_neg b1, if_neg b2, if_pos b3]
          rfl
        rw [hL, claimStep_skip (projState st) ('+' :: t) rfl (fun _ => b3)
          (fun hc => absurd hc (not_eq_true_of_false rfl)) rfl]
      · by_cases b4 : startsWith line (str "Binary files")
        · obtain ⟨t, rfl⟩ := startsWith_head b4
          have hL : projState (parseDiffStep st ('B' :: t)) = projState st := by
            unfold parseDiffStep
            rw [if_neg b1, if_neg b2, if_neg b3, if_pos b4]
            rfl
          rw [hL, claimStep_skip (projState st) ('B' :: t) rfl
            (fun hc => absurd hc (not_eq_true_of_false rfl))
            (fun hc => absurd hc (not_eq_true_of_false rfl)) rfl]
        · by_cases b5 : startsWith line (str "@@")
          · unfold parseDiffStep claimStep
            rw [if_neg b1, if_neg b2, if_neg b3, if_neg b4, if_pos b5, if_pos b5]
            cases hw : splitWhitespace line with
            | nil => rfl
            | cons f0 r1 =>
              cases r1 with
              | nil => rfl
              | cons f1 r2 =>
                cases r2 with
                | nil => rfl
                | cons f2 r3 =>
                  simp only [projState, claimRange_fst, claimRange_snd]
          · unfold parseDiffStep claimStep
            rw [if_neg b1, if_neg b2, if_neg b3, if_neg b4, if_neg b5, if_neg b5]
            rw [show (projState st).current = st.current_hunk from rfl]
            cases hc : st.current_hunk with
            | none => rfl
            | some hunk =>
              by_cases a1 : startsWith line (str "+") ∧ ¬ startsWith line (str "+++")
              · simp only [if_pos a1]
                rfl
              · simp only [if_neg a1]
                by_cases a2 : startsWith line (str "-") ∧ ¬ startsWith line (str "---")
                · simp only [if_pos a2]
                  rfl
                · simp only [if_neg a2]
                  by_cases a3 : startsWith line (str " ")
                  · simp only [if_pos a3]
                    rfl
                  · simp only [if_neg a3]

/-- Folding the parser's loop and projecting is folding the claim's scan. -/
theorem projState_foldl (lines : List (List Char)) (st : ParseState) :
    projState (lines.foldl parseDiffStep st) = lines.foldl claimStep (projState st) := by
  induction lines generalizing st with
  | nil => rfl
  | cons l rest ih =>
    rw [List.foldl_cons, List.foldl_cons, ih, projState_step]

/-- On any line list, the parser's hunks and counters are the claim-side
scan's. -/
theorem parseDiffLines_claim (L : List (List Char)) :
    (parseDiffLines L).hunks = (parseDiffClaim L).hunks ∧
    (parseDiffLines L).additions = (parseDiffClaim L).additions ∧
    (parseDiffLines L).deletions = (parseDiffClaim L).deletions := by
  have e : List.foldl claimStep initClaim L =
      projState (List.foldl parseDiffStep initState L) := by
    rw [show initClaim = projState initState from rfl]
    exact (projState_foldl L initState).symm
  simp only [parseDiffLines, parseDiffClaim, normalize_unicode]
  rw [e]
  exact ⟨rfl, rfl, rfl⟩

/-- C1 (amended).  For every input string, `parse_diff` returns the hunks,
addition count and deletion count that the claim's reading computes: each
line starting with `"@@"` pushes the previous hunk and, when it has at
least three whitespace-separated fields, opens a new hunk whose
`old_start`, `old_lines`, `new_start` and `new_lines` come from the
`-a,b` / `+c,d` range fields (a count is taken as 1 when the comma part is
absent or unparsable); within the current hunk every line starting with
`'+'` but not `"+++"` is an addition, every line starting with `'-'` but
not `"---"` a deletion, every line starting with `' '` context, with line
numbers assigned consecutively (in u32 arithmetic) from the hunk's starts,
additions advancing only the new counter, deletions only the old, context
both. -/
theorem parse_diff_matches_claim (s : String) (p : ParsedDiff)
    (h : parse_diff s = Except.ok p) :
    p.hunks = (parseDiffClaim (rustLines s.data)).hunks ∧
    p.additions = (parseDiffClaim (rustLines s.data)).additions ∧
    p.deletions = (parseDiffClaim (rustLines s.data)).deletions := by
  have hp : p = parseDiffLines (rustLines s.data) := by
    unfold parse_diff at h
    cases h
    rfl
  rw [hp]
  exact parseDiffLines_claim (rustLines s.data)

theorem parse_diff_matches_claim_witness :
    (parseDiffLines (rustLines ("diff --git a/f.txt b/f.txt\n--- a/f.txt\n+++ b/f.txt\n@@ -1,2 +1,3 @@\n ctx\n-old\n+new\n+new2" : String).data)).hunks =
      (parseDiffClaim (rustLines ("diff --git a/f.txt b/f.txt\n--- a/f.txt\n+++ b/f.txt\n@@ -1,2 +1,3 @@\n ctx\n-old\n+new\n+new2" : String).data)).hunks ∧
    (parseDiffLines (rustLines ("diff --git a/f.txt b/f.txt\n--- a/f.txt\n+++ b/f.txt\n@@ -1,2 +1,3 @@\n ctx\n-old\n+new\n+new2" : String).data)).additions =
      (parseDiffClaim (rustLines ("diff --git a/f.txt b/f.txt\n--- a/f.txt\n+++ b/f.txt\n@@ -1,2 +1,3 @@\n ctx\n-old\n+new\n+new2" : String).data)).additions ∧
    (parseDiffLines (rustLines ("diff --git a/f.txt b/f.txt\n--- a/f.txt\n+++ b/f.txt\n@@ -1,2 +1,3 @@\n ctx\n-old\n+new\n+new2" : String).data)).deletions =
      (parseDiffClaim (rustLines ("diff --git a/f.txt b/f.txt\n--- a/f.txt\n+++ b/f.txt\n@@ -1,2 +1,3 @@\n ctx\n-old\n+new\n+new2" : String).data)).deletions :=
  parse_diff_matches_claim
    "diff --git a/f.txt b/f.txt\n--- a/f.txt\n+++ b/f.txt\n@@ -1,2 +1,3 @@\n ctx\n-old\n+new\n+new2"
    _ rfl

/-- C1's counterexample to the claim as stated.  The claim says each line
starting with `"@@"` opens a new hunk (and the open hunk is pushed into
the result), so on the input `"@@"` the result would hold one hunk; the
code opens a hunk only when the `"@@"` line has at least three
whitespace-separated fields, so here `hunks` is empty (and the lone
addition-shaped line after such a header would be dropped as well). -/
theorem parse_diff_at_bare_marker :
    parse_diff "@@" = Except.ok
      { file_path := [], old_path := [], new_path := [], is_binary := false,
        hunks := [], additions := 0, deletions := 0 } := by
  rfl

/-- C8.  `parse_diff` is total: on every input string (the empty string,
malformed hunk headers and non-diff text included) it returns `Ok`; the
`Err` branch of its `Result` type is unreachable. -/
theorem parse_diff_never_fails (s : String) :
    parse_diff s = Except.ok (parseDiffLines (rustLines s.data)) ∧
    ∀ e : List Char, parse_diff s ≠ Except.error e := by
  constructor
  · rfl
  · intro e hc
    rw [show parse_diff s = Except.ok (parseDiffLines (rustLines s.data)) from rfl] at hc
    exact Except.noConfusion hc

/-! ## The counter invariant (C9) -/

/-- The claim-side scan's invariant: each counter is the number of
recorded lines of its type, reduced mod `2 ^ 32`, and every recorded line
carries the number pattern of its type. -/
def claimInv (cs : ClaimState) : Prop :=
  cs.adds = countLines (str "addition") (cs.hunks ++ cs.current.toList) % 4294967296 ∧
  cs.dels = countLines (str "deletion") (cs.hunks ++ cs.current.toList) % 4294967296 ∧
  hunksWellFormed (cs.hunks ++ cs.current.toList)

theorem countLines_append (t : List Char) (hs1 hs2 : List DiffHunk) :
    countLines t (hs1 ++ hs2) = countLines t hs1 + countLines t hs2 := by
  unfold countLines
  rw [List.map_append, List.sum_append]

theorem countLines_single (t : List Char) (h : DiffHunk) :
    countLines t [h] = (h.lines.filter (lineHasType t)).length := by
  unfold countLines
  simp

theorem hunksWellFormed_append {hs1 hs2 : List DiffHunk}
    (h1 : hunksWellFormed hs1) (h2 : hunksWellFormed hs2) :
    hunksWellFormed (hs1 ++ hs2) := by
  intro h hm
  rcases List.mem_append.mp hm with hm1 | hm2
  · exact h1 h hm1
  · exact h2 h hm2

theorem countLines_snoc_empty (t : List Char) (hs : List DiffHunk) (hunk : DiffHunk)
    (he : hunk.lines = []) :
    countLines t (hs ++ [hunk]) = countLines t hs := by
  rw [countLines_append, countLines_single, he]
  simp

theorem hunksWellFormed_snoc_empty {hs : List DiffHunk} {hunk : DiffHunk}
    (he : hunk.lines = []) (hw : hunksWellFormed hs) :
    hunksWellFormed (hs ++ [hunk]) := by
  intro k hk l hl
  rcases List.mem_append.mp hk with h1 | h2
  · exact hw k h1 l hl
  · rw [List.mem_singleton.mp h2, he] at hl
    simp at hl

theorem countLines_snoc_line (t : List Char) (hs : List DiffHunk) (hunk : DiffHunk)
    (l : DiffLine) :
    countLines t (hs ++ [{ hunk with lines := hunk.lines ++ [l] }]) =
      countLines t (hs ++ [hunk]) + (if lineHasType t l then 1 else 0) := by
  rw [countLines_append, countLines_append, countLines_single, countLines_single]
  have hred : ({ hunk with lines := hunk.lines ++ [l] } : DiffHunk).lines =
      hunk.lines ++ [l] := rfl
  rw [hred, List.filter_append, List.length_append]
  by_cases hp : lineHasType t l
  all_goals simp [List.filter_cons, hp]
  all_goals omega

theorem hunksWellFormed_snoc_line {hs : List DiffHunk} {hunk : DiffHunk} {l : DiffLine}
    (hw : hunksWellFormed (hs ++ [hunk])) (hl : lineNumbersWellFormed l) :
    hunksWellFormed (hs ++ [{ hunk with lines := hunk.lines ++ [l] }]) := by
  intro k hk l2 hl2
  rcases List.mem_append.mp hk with h1 | h2
  · exact hw k (List.mem_append.mpr (Or.inl h1)) l2 hl2
  · rw [List.mem_singleton.mp h2] at hl2
    rcases List.mem_append.mp hl2 with hh | hh
    · exact hw hunk (List.mem_append.mpr (Or.inr (List.mem_singleton.mpr rfl))) l2 hh
    · rw [List.mem_singleton.mp hh]
      exact hl

theorem wf_addition_line (n : Nat) (c : List Char) :
    lineNumbersWellFormed
      { line_type := str "addition", old_line_no := none,
        new_line_no := some n, content := c } :=
  ⟨fun _ => ⟨rfl, by simp⟩,
   fun hx => absurd (show str "addition" = str "deletion" from hx) (by decide),
   fun hx => absurd (show str "addition" = str "context" from hx) (by decide)⟩

theorem wf_deletion_line (n : Nat) (c : List Char) :
    lineNumbersWellFormed
      { line_type := str "deletion", old_line_no := some n,
        new_line_no := none, content := c } :=
  ⟨fun hx => absurd (show str "deletion" = str "addition" from hx) (by decide),
   fun _ => ⟨by simp, rfl⟩,
   fun hx => absurd (show str "deletion" = str "context" from hx) (by decide)⟩

theorem wf_context_line (m n : Nat) (c : List Char) :
    lineNumbersWellFormed
      { line_type := str "context", old_line_no := some m,
        new_line_no := some n, content := c } :=
  ⟨fun hx => absurd (show str "context" = str "addition" from hx) (by decide),
   fun hx => absurd (show str "context" = str "deletion" from hx) (by decide),
   fun _ => ⟨by simp, by simp⟩⟩

/-- One claim-side step preserves the invariant. -/
theorem claimStep_inv {cs : ClaimState} (line : List Char) (h : claimInv cs) :
    claimInv (claimStep cs line) := by
  obtain ⟨ha, hd, hw⟩ := h
  unfold claimStep
  by_cases b5 : startsWith line (str "@@")
  · rw [if_pos b5]
    cases hsw : splitWhitespace line with
    | nil =>
      refine ⟨?_, ?_, ?_⟩ <;>
        simp only [Option.toList_none, List.append_nil]
      · exact ha
      · exact hd
      · exact hw
    | cons f0 r1 =>
      cases r1 with
      | nil =>
        refine ⟨?_, ?_, ?_⟩ <;>
          simp only [Option.toList_none, List.append_nil]
        · exact ha
        · exact hd
        · exact hw
      | cons f1 r2 =>
        cases r2 with
        | nil =>
          refine ⟨?_, ?_, ?_⟩ <;>
            simp only [Option.toList_none, List.append_nil]
          · exact ha
          · exact hd
          · exact hw
        | cons f2 r3 =>
          refine ⟨?_, ?_, ?_⟩ <;>
            simp only [Option.toList_some]
          · rw [countLines_snoc_empty _ _ _ rfl]
            exact ha
          · rw [countLines_snoc_empty _ _ _ rfl]
            exact hd
          · exact hunksWellFormed_snoc_empty rfl hw
  · rw [if_neg b5]
    cases hc : cs.current with
    | none => exact ⟨ha, hd, hw⟩
    | some hunk =>
      rw [hc] at ha hd hw
      simp only [Option.toList_some] at ha hd hw
      by_cases a1 : startsWith line (str "+") ∧ ¬ startsWith line (str "+++")
      · simp only [if_pos a1]
        refine ⟨?_, ?_, ?_⟩ <;> dsimp only <;> simp only [Option.toList_some]
        · rw [countLines_snoc_line, if_pos (by simp [lineHasType]), ha]
          show w32 _ = _
          unfold w32
          rw [Nat.mod_add_mod]
        · rw [countLines_snoc_line, if_neg (by simp [lineHasType]; decide)]
          exact hd
        · exact hunksWellFormed_snoc_line hw (wf_addition_line _ _)
      · simp only [if_neg a1]
        by_cases a2 : startsWith line (str "-") ∧ ¬ startsWith line (str "---")
        · simp only [if_pos a2]
          refine ⟨?_, ?_, ?_⟩ <;> dsimp only <;> simp only [Option.toList_some]
          · rw [countLines_snoc_line, if_neg (by simp [lineHasType]; decide)]
            exact ha
          · rw [countLines_snoc_line, if_pos (by simp [lineHasType]), hd]
            show w32 _ = _
            unfold w32
            rw [Nat.mod_add_mod]
          · exact hunksWellFormed_snoc_line hw (wf_deletion_line _ _)
        · simp only [if_neg a2]
          by_cases a3 : startsWith line (str " ")
          · simp only [if_pos a3]
            refine ⟨?_, ?_, ?_⟩ <;> dsimp only <;> simp only [Option.toList_some]
            · rw [countLines_snoc_line, if_neg (by simp [lineHasType]; decide)]
              exact ha
            · rw [countLines_snoc_line, if_neg (by simp [lineHasType]; decide)]
              exact hd
            · exact hunksWellFormed_snoc_line hw (wf_context_line _ _ _)
          · simp only [if_neg a3]
            refine ⟨?_, ?_, ?_⟩ <;> rw [hc] <;> simp only [Option.toList_some]
            · exact ha
            · exact hd
            · exact hw

/-- The invariant holds along the whole scan. -/
theorem claimInv_foldl (L : List (List Char)) :
    ∀ cs : ClaimState, claimInv cs → claimInv (L.foldl claimStep cs) := by
  induction L with
  | nil => exact fun cs h => h
  | cons l rest ih =>
    intro cs h
    rw [List.foldl_cons]
    exact ih _ (claimStep_inv l h)

theorem claimInv_init : claimInv initClaim := by
  refine ⟨rfl, rfl, ?_⟩
  intro k hk
  simp [initClaim] at hk

/-- C9 (amended).  The `additions` field equals the number of recorded
`"addition"` lines across all hunks reduced modulo `2 ^ 32` (the counter
is a u32 and wraps), `deletions` likewise for `"deletion"` lines; and
every addition line has `old_line_no = None` and `new_line_no = Some`,
every deletion line the reverse, and every context line both `Some`. -/
theorem parse_diff_counts_and_shapes (s : String) (p : ParsedDiff)
    (h : parse_diff s = Except.ok p) :
    p.additions = countLines (str "addition") p.hunks % 4294967296 ∧
    p.deletions = countLines (str "deletion") p.hunks % 4294967296 ∧
    hunksWellFormed p.hunks := by
  have hp : p = parseDiffLines (rustLines s.data) := by
    unfold parse_diff at h
    cases h
    rfl
  subst hp
  obtain ⟨hh, hadd, hdel⟩ := parseDiffLines_claim (rustLines s.data)
  rw [hh, hadd, hdel]
  obtain ⟨ia, idels, iw⟩ :=
    claimInv_foldl (rustLines s.data) initClaim claimInv_init
  exact ⟨ia, idels, iw⟩

theorem parse_diff_counts_and_shapes_witness :
    (parseDiffLines (rustLines ("@@ -1,1 +2,2 @@\n x\n-y\n+z" : String).data)).additions =
      countLines (str "addition")
        (parseDiffLines (rustLines ("@@ -1,1 +2,2 @@\n x\n-y\n+z" : String).data)).hunks %
        4294967296 ∧
    (parseDiffLines (rustLines ("@@ -1,1 +2,2 @@\n x\n-y\n+z" : String).data)).deletions =
      countLines (str "deletion")
        (parseDiffLines (rustLines ("@@ -1,1 +2,2 @@\n x\n-y\n+z" : String).data)).hunks %
        4294967296 ∧
    hunksWellFormed
      (parseDiffLines (rustLines ("@@ -1,1 +2,2 @@\n x\n-y\n+z" : String).data)).hunks :=
  parse_diff_counts_and_shapes "@@ -1,1 +2,2 @@\n x\n-y\n+z" _ rfl

/-! ## The u32 wrap-around of the counters (C9's counterexample)

`additions` is a u32, so on an input with `2 ^ 32` addition lines it wraps
to 0 while the recorded lines number `2 ^ 32`. -/

/-- The three characters `"\n+x"`: a newline followed by an addition line. -/
def plusXChunk : List Char := ['\n', '+', 'x']

/-- A diff text of one hunk header followed by `2 ^ 32` addition lines. -/
def hugeDiffChars : List Char :=
  str "@@ -1,1 +1,1 @@" ++ (List.replicate 4294967296 plusXChunk).join

/-- The same text as a string. -/
def hugeDiff : String := String.mk hugeDiffChars

theorem rustLinesAux_no_newline :
    ∀ (l rest acc : List Char), (∀ c ∈ l, c ≠ '\n') →
      rustLinesAux (l ++ rest) acc = rustLinesAux rest (l.reverse ++ acc) := by
  intro l
  induction l with
  | nil =>
    intro rest acc _
    simp
  | cons c l2 ih =>
    intro rest acc hno
    have hc : ¬ c = '\n' := hno c (List.mem_cons_self c l2)
    show rustLinesAux (c :: (l2 ++ rest)) acc = _
    conv_lhs => unfold rustLinesAux
    rw [if_neg hc, ih rest (c :: acc) (fun d hd => hno d (List.mem_cons_of_mem c hd))]
    congr 1
    simp

theorem rustLinesAux_step_ne (c : Char) (rest acc : List Char) (hc : ¬ c = '\n') :
    rustLinesAux (c :: rest) acc = rustLinesAux rest (c :: acc) := by
  conv_lhs => unfold rustLinesAux
  rw [if_neg hc]

theorem rustLinesAux_step_nl_xplus (rest : List Char) :
    rustLinesAux ('\n' :: rest) ['x', '+'] = str "+x" :: rustLinesAux rest [] := by
  conv_lhs => unfold rustLinesAux
  rw [if_pos rfl]
  rfl

theorem rustLinesAux_step_nl_hdr (rest : List Char) :
    rustLinesAux ('\n' :: rest) ((str "@@ -1,1 +1,1 @@").reverse) =
      str "@@ -1,1 +1,1 @@" :: rustLinesAux rest [] := by
  conv_lhs => unfold rustLinesAux
  rw [if_pos rfl]
  rfl

theorem join_cons_chars (l : List Char) (ls : List (List Char)) :
    (l :: ls).join = l ++ ls.join := rfl

theorem rustLinesAux_chunks :
    ∀ n : Nat, rustLinesAux ((List.replicate n plusXChunk).join) ['x', '+'] =
      List.replicate (n + 1) (str "+x") := by
  intro n
  induction n with
  | zero => rfl
  | succ n ih =>
    rw [List.replicate_succ, join_cons_chars]
    show rustLinesAux ('\n' :: '+' :: 'x' :: (List.replicate n plusXChunk).join) ['x', '+'] = _
    rw [rustLinesAux_step_nl_xplus, rustLinesAux_step_ne '+' _ _ (by decide),
      rustLinesAux_step_ne 'x' _ _ (by decide), ih]
    rfl

theorem rustLines_hugeDiff :
    rustLines hugeDiffChars =
      str "@@ -1,1 +1,1 @@" :: List.replicate 4294967296 (str "+x") := by
  unfold rustLines hugeDiffChars
  rw [rustLinesAux_no_newline (str "@@ -1,1 +1,1 @@") _ [] (by decide), List.append_nil,
    show (4294967296 : Nat) = 4294967295 + 1 from rfl, List.replicate_succ, join_cons_chars]
  show rustLinesAux
      ('\n' :: '+' :: 'x' :: (List.replicate 4294967295 plusXChunk).join)
      ((str "@@ -1,1 +1,1 @@").reverse) = _
  rw [rustLinesAux_step_nl_hdr, rustLinesAux_step_ne '+' _ _ (by decide),
    rustLinesAux_step_ne 'x' _ _ (by decide), rustLinesAux_chunks]

/-- Stepping the parser with the line `"+x"` while a hunk is open records
one addition and bumps the wrapped counters. -/
theorem step_plus_x (st : ParseState) (hunk : DiffHunk)
    (hc : st.current_hunk = some hunk) :
    parseDiffStep st (str "+x") = { st with
      current_hunk := some { hunk with lines := hunk.lines ++
        [{ line_type := str "addition", old_line_no := none,
           new_line_no := some st.new_line_no, content := str "x" }] },
      new_line_no := w32 (st.new_line_no + 1),
      additions := w32 (st.additions + 1) } := by
  have n1 : ¬ startsWith (str "+x") (str "diff --git") = true := by decide
  have n2 : ¬ startsWith (str "+x") (str "---") = true := by decide
  have n3 : ¬ startsWith (str "+x") (str "+++") = true := by decide
  have n4 : ¬ startsWith (str "+x") (str "Binary files") = true := by decide
  have n5 : ¬ startsWith (str "+x") (str "@@") = true := by decide
  have p1 : startsWith (str "+x") (str "+") = true ∧
      ¬ startsWith (str "+x") (str "+++") = true := by decide
  unfold parseDiffStep
  rw [if_neg n1, if_neg n2, if_neg n3, if_neg n4, if_neg n5, hc]
  simp only [if_pos p1]
  rfl

theorem foldl_plus_x (n : Nat) :
    ∀ (st : ParseState) (hunk : DiffHunk),
      st.current_hunk = some hunk → st.additions < 4294967296 →
      ((List.replicate n (str "+x")).foldl parseDiffStep st).hunks = st.hunks ∧
      ((List.replicate n (str "+x")).foldl parseDiffStep st).deletions = st.deletions ∧
      ((List.replicate n (str "+x")).foldl parseDiffStep st).additions =
        (st.additions + n) % 4294967296 ∧
      ∃ hunk2 : DiffHunk,
        ((List.replicate n (str "+x")).foldl parseDiffStep st).current_hunk = some hunk2 ∧
        (hunk2.lines.filter (lineHasType (str "addition"))).length =
          (hunk.lines.filter (lineHasType (str "addition"))).length + n := by
  induction n with
  | zero =>
    intro st hunk hc hlt
    exact ⟨rfl, rfl, by simp [Nat.mod_eq_of_lt hlt], hunk, hc, rfl⟩
  | succ n ih =>
    intro st hunk hc hlt
    rw [List.replicate_succ, List.foldl_cons, step_plus_x st hunk hc]
    obtain ⟨h1, h2, h3, hunk2, h4, h5⟩ :=
      ih { st with
            current_hunk := some { hunk with lines := hunk.lines ++
              [{ line_type := str "addition", old_line_no := none,
                 new_line_no := some st.new_line_no, content := str "x" }] },
            new_line_no := w32 (st.new_line_no + 1),
            additions := w32 (st.additions + 1) }
        _ rfl (Nat.mod_lt _ (by norm_num))
    refine ⟨h1, h2, ?_, hunk2, h4, ?_⟩
    · rw [h3]
      show (w32 (st.additions + 1) + n) % 4294967296 = _
      unfold w32
      omega
    · rw [h5]
      have he : ((({ hunk with lines := hunk.lines ++
            [{ line_type := str "addition", old_line_no := none,
               new_line_no := some st.new_line_no, content := str "x" }] } : DiffHunk)).lines.filter
            (lineHasType (str "addition"))).length =
          (hunk.lines.filter (lineHasType (str "addition"))).length + 1 := by
        show ((hunk.lines ++ _).filter _).length = _
        rw [List.filter_append, List.length_append]
        simp [List.filter_cons, lineHasType]
      rw [he]
      omega

/-- The `additions` field of the assembled result is the fold state's. -/
theorem parseDiffLines_additions (L : List (List Char)) :
    (parseDiffLines L).additions = (L.foldl parseDiffStep initState).additions := rfl

/-- The `hunks` field of the assembled result is the fold state's hunks
with the open hunk pushed. -/
theorem parseDiffLines_hunks_eq (L : List (List Char)) :
    (parseDiffLines L).hunks =
      (L.foldl parseDiffStep initState).hunks ++
        (L.foldl parseDiffStep initState).current_hunk.toList := rfl

/-- C9's counterexample to the claim as stated.  On a diff text of one
hunk header followed by `2 ^ 32` addition lines, the u32 `additions`
counter wraps to 0 while the hunks hold `2 ^ 32` recorded addition lines,
so the field does not equal the count. -/
theorem parse_diff_additions_overflow :
    parse_diff hugeDiff = Except.ok (parseDiffLines (rustLines hugeDiffChars)) ∧
    (parseDiffLines (rustLines hugeDiffChars)).additions = 0 ∧
    countLines (str "addition") (parseDiffLines (rustLines hugeDiffChars)).hunks =
      4294967296 := by
  have hst1 : parseDiffStep initState (str "@@ -1,1 +1,1 @@") =
      { file_path := [], old_path := [], new_path := [], is_binary := false,
        hunks := [], additions := 0, deletions := 0,
        current_hunk := some { old_start := 1, old_lines := 1, new_start := 1,
                               new_lines := 1, header := str "@@ -1,1 +1,1 @@",
                               lines := [] },
        old_line_no := 1, new_line_no := 1 } := by
    decide
  obtain ⟨h1, h2, h3, hunk2, h4, h5⟩ :=
    foldl_plus_x 4294967296
      { file_path := [], old_path := [], new_path := [], is_binary := false,
        hunks := [], additions := 0, deletions := 0,
        current_hunk := some { old_start := 1, old_lines := 1, new_start := 1,
                               new_lines := 1, header := str "@@ -1,1 +1,1 @@",
                               lines := [] },
        old_line_no := 1, new_line_no := 1 }
      { old_start := 1, old_lines := 1, new_start := 1, new_lines := 1,
        header := str "@@ -1,1 +1,1 @@", lines := [] }
      rfl (by norm_num)
  refine ⟨rfl, ?_, ?_⟩
  · rw [rustLines_hugeDiff, parseDiffLines_additions, List.foldl_cons, hst1, h3]
    show (0 + 4294967296) % 4294967296 = 0
    norm_num
  · rw [rustLines_hugeDiff, parseDiffLines_hunks_eq, List.foldl_cons, hst1, h1, h4]
    show countLines (str "addition") ([] ++ [hunk2]) = 4294967296
    rw [List.nil_append, countLines_single, h5]
    show (List.filter (lineHasType (str "addition")) []).length + 4294967296 = 4294967296
    rfl

/-! ## Patch re-serialization of `get_commit_diff` / `get_file_diff` (C3)

The two handlers call libgit2 and re-emit its `DiffFormat::Patch` output.
The library is modelled as an environment: one `Except` outcome per
library call (`Except.error` carrying the message that the handler's
`map_err(|e| e.to_string())` produced), plus the byte content of every
line the patch printer emits to the `diff.print` callback, in emission
order.  The handler bodies below are translated from
diff.rs:41-81 and diff.rs:85-115. -/

/-- The replacement character U+FFFD. -/
def replacementChar : Char := Char.ofNat 0xFFFD

/-- Rust `String::from_utf8_lossy` on a byte sequence: UTF-8 decoding
where each maximal invalid subpart (the lead byte together with the valid
continuation bytes already seen) is replaced by one U+FFFD, per the
documented behaviour of the standard library's UTF-8 validation. -/
def utf8Lossy : List Nat → List Char
  | [] => []
  | b :: rest =>
    if b ≤ 0x7F then Char.ofNat b :: utf8Lossy rest
    else if 0xC2 ≤ b ∧ b ≤ 0xDF then
      match rest with
      | b1 :: rest1 =>
        if 0x80 ≤ b1 ∧ b1 ≤ 0xBF then
          Char.ofNat ((b - 0xC0) * 0x40 + (b1 - 0x80)) :: utf8Lossy rest1
        else replacementChar :: utf8Lossy (b1 :: rest1)
      | [] => [replacementChar]
    else if 0xE0 ≤ b ∧ b ≤ 0xEF then
      match rest with
      | b1 :: rest1 =>
        if (if b = 0xE0 then 0xA0 else 0x80) ≤ b1 ∧
            b1 ≤ (if b = 0xED then 0x9F else 0xBF) then
          match rest1 with
          | b2 :: rest2 =>
            if 0x80 ≤ b2 ∧ b2 ≤ 0xBF then
              Char.ofNat (((b - 0xE0) * 0x40 + (b1 - 0x80)) * 0x40 + (b2 - 0x80)) ::
                utf8Lossy rest2
            else replacementChar :: utf8Lossy (b2 :: rest2)
          | [] => [replacementChar]
        else replacementChar :: utf8Lossy (b1 :: rest1)
      | [] => [replacementChar]
    else if 0xF0 ≤ b ∧ b ≤ 0xF4 then
      match rest with
      | b1 :: rest1 =>
        if (if b = 0xF0 then 0x90 else 0x80) ≤ b1 ∧
            b1 ≤ (if b = 0xF4 then 0x8F else 0xBF) then
          match rest1 with
          | b2 :: rest2 =>
            if 0x80 ≤ b2 ∧ b2 ≤ 0xBF then
              match rest2 with
              | b3 :: rest3 =>
                if 0x80 ≤ b3 ∧ b3 ≤ 0xBF then
                  Char.ofNat ((((b - 0xF0) * 0x40 + (b1 - 0x80)) * 0x40 +
                    (b2 - 0x80)) * 0x40 + (b3 - 0x80)) :: utf8Lossy rest3
                else replacementChar :: utf8Lossy (b3 :: rest3)
              | [] => [replacementChar]
            else replacementChar :: utf8Lossy (b2 :: rest2)
          | [] => [replacementChar]
        else replacementChar :: utf8Lossy (b1 :: rest1)
      | [] => [replacementChar]
    else replacementChar :: utf8Lossy rest

instance {E A : Type} [DecidableEq E] [DecidableEq A] : DecidableEq (Except E A) :=
  fun a b =>
  match a, b with
  | Except.error e1, Except.error e2 =>
    if h : e1 = e2 then isTrue (by rw [h]) else isFalse (fun hc => h (Except.error.inj hc))
  | Except.error _, Except.ok _ => isFalse (fun hc => Except.noConfusion hc)
  | Except.ok _, Except.error _ => isFalse (fun hc => Except.noConfusion hc)
  | Except.ok a1, Except.ok a2 =>
    if h : a1 = a2 then isTrue (by rw [h]) else isFalse (fun hc => h (Except.ok.inj hc))

/-- The library calls `get_commit_diff` makes, in program order, and the
patch lines its `diff.print` callback receives. -/
structure CommitDiffEnv where
  open_repo : Except (List Char) Unit
  parse_oid : Except (List Char) Unit
  find_commit : Except (List Char) Unit
  commit_tree : Except (List Char) Unit
  parent_count : Nat
  parent_commit : Except (List Char) Unit
  parent_tree : Except (List Char) Unit
  diff_tree_to_tree : Except (List Char) Unit
  print_result : Except (List Char) Unit
  emitted : List (List Nat)

/-- Translation of `get_commit_diff` (diff.rs:85-115): open the repo,
parse the oid, look up the commit and its tree, take the first parent's
tree when there is one, build the library diff, and re-serialize the
emitted patch lines by appending each one's lossily-decoded content. -/
def get_commit_diff (env : CommitDiffEnv) : Except (List Char) (List Char) := do
  let _ ← env.open_repo
  let _ ← env.parse_oid
  let _ ← env.find_commit
  let _ ← env.commit_tree
  let _ ← (if 0 < env.parent_count then do
      let _ ← env.parent_commit
      let _ ← env.parent_tree
      pure true
    else pure false)
  let _ ← env.diff_tree_to_tree
  let patch_text := env.emitted.foldl (fun acc l => acc ++ utf8Lossy l) []
  let _ ← env.print_result
  pure patch_text

/-- The library calls `get_file_diff` makes, in program order, and the
patch lines its `diff.print` callback receives. -/
structure FileDiffEnv where
  open_repo : Except (List Char) Unit
  head_ref : Except (List Char) Unit
  peel_to_tree : Except (List Char) Unit
  index : Except (List Char) Unit
  write_tree : Except (List Char) Unit
  find_tree : Except (List Char) Unit
  diff_tree_to_tree : Except (List Char) Unit
  diff_index_to_workdir : Except (List Char) Unit
  print_result : Except (List Char) Unit
  emitted : List (List Nat)

/-- Translation of `get_file_diff` (diff.rs:41-81): open the repo, build
the staged (HEAD tree vs index tree) or unstaged (index vs workdir)
library diff, and re-serialize the emitted patch lines.  The pathspec and
context options fed to the library are part of the environment's
behaviour. -/
def get_file_diff (env : FileDiffEnv) (staged : Bool) : Except (List Char) (List Char) := do
  let _ ← env.open_repo
  let _ ← (if staged then do
      let _ ← env.head_ref
      let _ ← env.peel_to_tree
      let _ ← env.index
      let _ ← env.write_tree
      let _ ← env.find_tree
      env.diff_tree_to_tree
    else env.diff_index_to_workdir)
  let patch_text := env.emitted.foldl (fun acc l => acc ++ utf8Lossy l) []
  let _ ← env.print_result
  pure patch_text

theorem foldl_append_utf8 (ls : List (List Nat)) :
    ∀ acc : List Char, ls.foldl (fun acc l => acc ++ utf8Lossy l) acc =
      acc ++ (ls.map utf8Lossy).join := by
  induction ls with
  | nil =>
    intro acc
    simp
  | cons l rest ih =>
    intro acc
    rw [List.foldl_cons, ih, List.map_cons, join_cons_chars, List.append_assoc]

theorem except_bind_ok {E α β : Type} {x : Except E α} {f : α → Except E β} {b : β}
    (h : x >>= f = Except.ok b) : ∃ a, x = Except.ok a ∧ f a = Except.ok b := by
  cases x with
  | error e => exact absurd h (fun hc => Except.noConfusion hc)
  | ok a => exact ⟨a, rfl, h⟩

/-- C3.  Neither handler computes a diff of its own: whenever
`get_commit_diff` or `get_file_diff` succeeds, the returned string is
exactly the concatenation, in emission order, of the lossily-decoded
content of every line the library's patch printer emitted — nothing
added, dropped or reordered. -/
theorem diff_handlers_reserialize :
    (∀ (env : CommitDiffEnv) (s : List Char),
      get_commit_diff env = Except.ok s → s = (env.emitted.map utf8Lossy).join) ∧
    (∀ (env : FileDiffEnv) (staged : Bool) (s : List Char),
      get_file_diff env staged = Except.ok s → s = (env.emitted.map utf8Lossy).join) := by
  constructor
  · intro env s h
    unfold get_commit_diff at h
    obtain ⟨_, _, h⟩ := except_bind_ok h
    obtain ⟨_, _, h⟩ := except_bind_ok h
    obtain ⟨_, _, h⟩ := except_bind_ok h
    obtain ⟨_, _, h⟩ := except_bind_ok h
    obtain ⟨_, _, h⟩ := except_bind_ok h
    obtain ⟨_, _, h⟩ := except_bind_ok h
    obtain ⟨_, _, h⟩ := except_bind_ok h
    have hx : env.emitted.foldl (fun acc l => acc ++ utf8Lossy l) [] = s :=
      Except.ok.inj h
    rw [← hx, foldl_append_utf8, List.nil_append]
  · intro env staged s h
    unfold get_file_diff at h
    obtain ⟨_, _, h⟩ := except_bind_ok h
    obtain ⟨_, _, h⟩ := except_bind_ok h
    obtain ⟨_, _, h⟩ := except_bind_ok h
    have hx : env.emitted.foldl (fun acc l => acc ++ utf8Lossy l) [] = s :=
      Except.ok.inj h
    rw [← hx, foldl_append_utf8, List.nil_append]

/-- A fully successful run of `get_commit_diff`: the printer emits the
bytes of `"hi"` and of `"가"` (U+AC00). -/
def commitDiffEnvExample : CommitDiffEnv :=
  { open_repo := Except.ok (), parse_oid := Except.ok (), find_commit := Except.ok (),
    commit_tree := Except.ok (), parent_count := 1, parent_commit := Except.ok (),
    parent_tree := Except.ok (), diff_tree_to_tree := Except.ok (),
    print_result := Except.ok (), emitted := [[104, 105], [0xEA, 0xB0, 0x80]] }

/-- A fully successful run of `get_file_diff`: the printer emits the bytes
of `"+ab\n"`. -/
def fileDiffEnvExample : FileDiffEnv :=
  { open_repo := Except.ok (), head_ref := Except.ok (), peel_to_tree := Except.ok (),
    index := Except.ok (), write_tree := Except.ok (), find_tree := Except.ok (),
    diff_tree_to_tree := Except.ok (), diff_index_to_workdir := Except.ok (),
    print_result := Except.ok (), emitted := [[43, 97, 98, 10]] }

theorem diff_handlers_reserialize_witness :
    str "hi가" = (commitDiffEnvExample.emitted.map utf8Lossy).join ∧
    str "+ab\n" = (fileDiffEnvExample.emitted.map utf8Lossy).join :=
  ⟨diff_handlers_reserialize.1 commitDiffEnvExample (str "hi가") (by decide),
   diff_handlers_reserialize.2 fileDiffEnvExample true (str "+ab\n") (by decide)⟩

/-! ## The error plumbing of `get_commit_history` (C2)

`get_commit_history` (git.rs:92-131) walks the repository's commits and
maps every library failure into an `Err` string — except that it converts
each commit's timestamp with `Utc.timestamp_opt(timestamp, 0).unwrap()`,
which panics when the timestamp is outside chrono's representable range.
The libgit2 calls are an environment; `Outcome.panicked` models a Rust
panic (an outcome that is neither `Ok` nor `Err`). -/

/-- The `CommitInfo` struct of git.rs (fields as built at git.rs:119-127). -/
structure CommitInfo where
  sha : List Char
  author : List Char
  email : List Char
  message : List Char
  timestamp : Int
  date : List Char
  parent_ids : List (List Char)
deriving DecidableEq

/-- What the revwalk yields for one commit: the oid rendered by
`to_string`, the i64 committer timestamp, the optional author name, email
and message, and the parent oids. -/
structure CommitData where
  id : List Char
  time_seconds : Int
  author_name : Option (List Char)
  author_email : Option (List Char)
  message : Option (List Char)
  parent_ids : List (List Char)
deriving DecidableEq

/-- The library calls `get_commit_history` makes: the repository open, the
revwalk construction, `push_head`, `set_sorting`, and then one outcome per
walked item (an `error` covers a failing oid read or commit lookup, both
of which the source maps through `e.to_string()`). -/
structure HistoryEnv where
  open_repo : Except (List Char) Unit
  revwalk : Except (List Char) Unit
  push_head : Except (List Char) Unit
  set_sorting : Except (List Char) Unit
  walk : List (Except (List Char) CommitData)

/-- A handler run's outcome: `ok`, `err`, or a Rust panic. -/
inductive Outcome (α : Type) where
  | ok : α → Outcome α
  | err : List Char → Outcome α
  | panicked : Outcome α
deriving DecidableEq

/-- Modelled from the chrono 0.4 documentation: `Utc.timestamp_opt(secs, 0)`
is a usable value exactly when `secs` lies in the range `NaiveDateTime`
can represent (about years −262144 to 262143), and `LocalResult::None`
otherwise, on which `.unwrap()` panics.  Only the fact that `i64::MAX`
lies far outside any such range is used below. -/
def chronoTimestampInRange (t : Int) : Bool :=
  -8334601228800 ≤ t ∧ t ≤ 8210266876799

/-- Stand-in for `datetime.format("%Y-%m-%d %H:%M:%S")`: the rendered text
is never constrained by a claim, only that formatting a representable
timestamp does not fail. -/
def chronoFormatDate (t : Int) : List Char := str (toString t)

/-- The `for (idx, oid_result) in revwalk.enumerate()` loop of
`get_commit_history` (git.rs:103-128): stop at `limit`, propagate library
errors as `err`, panic on an out-of-range timestamp (the source's
`Utc.timestamp_opt(timestamp, 0).unwrap()` at git.rs:113), and otherwise
push the assembled `CommitInfo`. -/
def commitHistoryLoop (limit : Nat) :
    List (Except (List Char) CommitData) → Nat → List CommitInfo →
      Outcome (List CommitInfo)
  | [], _, acc => Outcome.ok acc
  | item :: rest, idx, acc =>
    if limit ≤ idx then Outcome.ok acc
    else
      match item with
      | Except.error e => Outcome.err e
      | Except.ok c =>
        if chronoTimestampInRange c.time_seconds then
          commitHistoryLoop limit rest (idx + 1) (acc ++
            [{ sha := c.id, author := c.author_name.getD (str "Unknown"),
               email := c.author_email.getD [], message := c.message.getD [],
               timestamp := c.time_seconds, date := chronoFormatDate c.time_seconds,
               parent_ids := c.parent_ids }])
        else Outcome.panicked

/-- Translation of `get_commit_history` (git.rs:92-131). -/
def get_commit_history (env : HistoryEnv) (limit : Nat) : Outcome (List CommitInfo) :=
  match env.open_repo with
  | Except.error e => Outcome.err (str "레포지토리를 열 수 없습니다: " ++ e)
  | Except.ok _ =>
    match env.revwalk with
    | Except.error e => Outcome.err e
    | Except.ok _ =>
      match env.push_head with
      | Except.error e => Outcome.err e
      | Except.ok _ =>
        match env.set_sorting with
        | Except.error e => Outcome.err e
        | Except.ok _ => commitHistoryLoop limit env.walk 0 []

/-- A repository whose sole walked commit carries committer timestamp
`i64::MAX` — writable into a git commit object, and outside chrono's
representable range — with every library call succeeding. -/
def overflowHistoryEnv : HistoryEnv :=
  { open_repo := Except.ok (), revwalk := Except.ok (), push_head := Except.ok (),
    set_sorting := Except.ok (),
    walk := [Except.ok { id := str "deadbeef", time_seconds := 9223372036854775807,
                         author_name := none, author_email := none, message := none,
                         parent_ids := [] }] }

/-- C2's failing input, evaluated: with every library call succeeding but
the walked commit's timestamp out of chrono's range, `get_commit_history`
panics on the `timestamp_opt(..).unwrap()` — it returns neither `Ok` nor
a localized `Err` string, contradicting the claim that handlers never
panic and map every failure to an error string. -/
theorem get_commit_history_panics :
    get_commit_history overflowHistoryEnv 10 = Outcome.panicked := by
  decide

end GitMul
